import Mathlib

/-!
# Verification of the Azure Key Vault provider content pipeline

Shallow embedding of `pkg/provider/provider.go` (secrets-store-csi-driver-provider-azure):
the encoding normalizer (`validateObjectFormat`, `getContentBytes`), the PKCS#12
container extractor (`decodePKCS12`, `parsePrivateKey`), the certificate chain
assembler (`fetchCertChains`), and the mount file-name validation
(`validateFileName`).

Go strings that carry payload bytes are modelled as `List Nat` (byte values);
short configuration strings (object type, format, encoding) are modelled as
Lean `String`.  Machine arithmetic on bytes is `Nat` arithmetic with explicit
`/ % ×` against powers of two.
-/

deriving instance DecidableEq for Except

namespace AzProvider

/-- ASCII lowercase folding of one code point (`A`-`Z` mapped down by 32). -/
def lowerCode (n : Nat) : Nat :=
  if 65 ≤ n && n ≤ 90 then n + 32 else n

/-- Model of Go `strings.EqualFold` for the ASCII configuration strings used by
the provider: compare the two strings after ASCII case folding, which agrees
with Go simple case folding on the ASCII strings compared here. -/
def eqFold (a b : String) : Bool :=
  a.data.map (fun c => lowerCode c.toNat) == b.data.map (fun c => lowerCode c.toNat)

/-- Constant `VaultObjectTypeSecret` from provider.go. -/
def VaultObjectTypeSecret : String := "secret"

/-- Constant `VaultObjectTypeKey` from provider.go. -/
def VaultObjectTypeKey : String := "key"

/-- Constant `VaultObjectTypeCertificate` from provider.go. -/
def VaultObjectTypeCertificate : String := "cert"

/-- Constant `objectFormatPEM` from provider.go. -/
def objectFormatPEM : String := "pem"

/-- Constant `objectFormatPFX` from provider.go. -/
def objectFormatPFX : String := "pfx"

/-- Constant `objectEncodingHex` from provider.go. -/
def objectEncodingHex : String := "hex"

/-- Constant `objectEncodingBase64` from provider.go. -/
def objectEncodingBase64 : String := "base64"

/-- Constant `objectEncodingUtf8` from provider.go. -/
def objectEncodingUtf8 : String := "utf-8"

/-- Constant `certificateType` from provider.go. -/
def certificateType : String := "CERTIFICATE"

/-- Embedding of `validateObjectFormat` (provider.go lines 557-570).
Note that the PFX-only-for-secret guard compares `objectFormat` with `==`
(case sensitively), unlike the validity check right above it which uses
`strings.EqualFold`. -/
def validateObjectFormat (objectFormat objectType : String) : Except String Unit :=
  if objectFormat == "" then
    .ok ()
  else if !(eqFold objectFormat objectFormatPEM) && !(eqFold objectFormat objectFormatPFX) then
    .error ("invalid objectFormat: " ++ objectFormat ++ ", should be PEM or PFX")
  else if objectFormat == objectFormatPFX && objectType != VaultObjectTypeSecret then
    .error "PFX format only supported for objectType: secret"
  else
    .ok ()

/-- Embedding of `validateObjectEncoding` (provider.go lines 590-605). -/
def validateObjectEncoding (objectEncoding objectType : String) : Except String Unit :=
  if objectEncoding == "" then
    .ok ()
  else if objectType != VaultObjectTypeSecret then
    .error "objectEncoding only supported for objectType: secret"
  else if !(eqFold objectEncoding objectEncodingHex) && !(eqFold objectEncoding objectEncodingBase64)
      && !(eqFold objectEncoding objectEncodingUtf8) then
    .error ("invalid objectEncoding: " ++ objectEncoding ++ ", should be hex, base64 or utf-8")
  else
    .ok ()

/-- Value 0..63 to standard base64 alphabet byte
(Go `encoding/base64` `StdEncoding` alphabet `A-Za-z0-9+/`). -/
def b64Char (v : Nat) : Nat :=
  if v < 26 then v + 65
  else if v < 52 then v + 71
  else if v < 62 then v - 4
  else if v == 62 then 43
  else 47

/-- Standard base64 alphabet byte back to its 6-bit value
(Go `encoding/base64` decode map for `StdEncoding`). -/
def b64Val (c : Nat) : Option Nat :=
  if 65 ≤ c && c ≤ 90 then some (c - 65)
  else if 97 ≤ c && c ≤ 122 then some (c - 71)
  else if 48 ≤ c && c ≤ 57 then some (c + 4)
  else if c == 43 then some 62
  else if c == 47 then some 63
  else none

/-- Model of Go `base64.StdEncoding.EncodeToString` on a byte list: groups of
three bytes become four alphabet bytes; a final group of one or two bytes is
padded with `'='` (byte 61). -/
def base64Encode : List Nat → List Nat
  | [] => []
  | [b0] => [b64Char (b0 / 4), b64Char (b0 % 4 * 16), 61, 61]
  | [b0, b1] => [b64Char (b0 / 4), b64Char (b0 % 4 * 16 + b1 / 16), b64Char (b1 % 16 * 4), 61]
  | b0 :: b1 :: b2 :: rest =>
      b64Char (b0 / 4) :: b64Char (b0 % 4 * 16 + b1 / 16) ::
        b64Char (b1 % 16 * 4 + b2 / 64) :: b64Char (b2 % 64) :: base64Encode rest

/-- Model of Go `base64.StdEncoding.DecodeString`: the input must be a sequence
of four-byte quantums; `'='` padding may appear only as the last one or two
bytes of the whole input; like Go's non-Strict decoder, nonzero trailing bits
before the padding are accepted and discarded. -/
def base64DecodeString : List Nat → Except String (List Nat)
  | [] => .ok []
  | c0 :: c1 :: c2 :: c3 :: rest =>
      match b64Val c0, b64Val c1 with
      | some v0, some v1 =>
        if c2 == 61 then
          if c3 == 61 && rest.isEmpty then .ok [v0 * 4 + v1 / 16]
          else .error "illegal base64 data"
        else
          match b64Val c2 with
          | some v2 =>
            if c3 == 61 then
              if rest.isEmpty then .ok [v0 * 4 + v1 / 16, v1 % 16 * 16 + v2 / 4]
              else .error "illegal base64 data"
            else
              match b64Val c3 with
              | some v3 =>
                  (base64DecodeString rest).map
                    (fun bs => (v0 * 4 + v1 / 16) :: (v1 % 16 * 16 + v2 / 4) :: (v2 % 4 * 64 + v3) :: bs)
              | none => .error "illegal base64 data"
          | none => .error "illegal base64 data"
      | _, _ => .error "illegal base64 data"
  | _ => .error "illegal base64 data"

/-- Value 0..15 to lowercase hex digit byte (Go `encoding/hex` encode table). -/
def hexChar (v : Nat) : Nat :=
  if v < 10 then v + 48 else v + 87

/-- Hex digit byte back to its value; Go `encoding/hex` accepts `0-9`, `a-f`
and `A-F`. -/
def hexVal (c : Nat) : Option Nat :=
  if 48 ≤ c && c ≤ 57 then some (c - 48)
  else if 97 ≤ c && c ≤ 102 then some (c - 87)
  else if 65 ≤ c && c ≤ 70 then some (c - 55)
  else none

/-- Model of Go `hex.EncodeToString` on a byte list. -/
def hexEncode : List Nat → List Nat
  | [] => []
  | b :: rest => hexChar (b / 16) :: hexChar (b % 16) :: hexEncode rest

/-- Model of Go `hex.DecodeString`: pairs of hex digits; an odd-length input or
a non-digit byte is an error. -/
def hexDecodeString : List Nat → Except String (List Nat)
  | [] => .ok []
  | [_] => .error "encoding hex odd length hex string"
  | c0 :: c1 :: rest =>
      match hexVal c0, hexVal c1 with
      | some v0, some v1 => (hexDecodeString rest).map (fun bs => (v0 * 16 + v1) :: bs)
      | _, _ => .error "encoding hex invalid byte"

/-- Embedding of `getContentBytes` (provider.go lines 609-623); the content
string is modelled as its byte list. -/
def getContentBytes (content : List Nat) (objectType objectEncoding : String) :
    Except String (List Nat) :=
  if !(eqFold objectType VaultObjectTypeSecret) || objectEncoding == ""
      || eqFold objectEncoding objectEncodingUtf8 then
    .ok content
  else if eqFold objectEncoding objectEncodingBase64 then
    base64DecodeString content
  else if eqFold objectEncoding objectEncodingHex then
    hexDecodeString content
  else
    .error "invalid objectEncoding. Should be utf-8, base64, or hex"

/-- Decoding an encoded sextet recovers its value. -/
lemma b64Val_b64Char (v : Nat) (h : v < 64) : b64Val (b64Char v) = some v := by
  have hall : ∀ x, x < 64 → b64Val (b64Char x) = some x := by decide
  exact hall v h

/-- The base64 alphabet never produces the padding byte. -/
lemma b64Char_ne_pad (v : Nat) (h : v < 64) : (b64Char v == 61) = false := by
  have hall : ∀ x, x < 64 → (b64Char x == 61) = false := by decide
  exact hall v h

/-- Decoding an encoded hex digit recovers its value. -/
lemma hexVal_hexChar (v : Nat) (h : v < 16) : hexVal (hexChar v) = some v := by
  have hall : ∀ x, x < 16 → hexVal (hexChar x) = some x := by decide
  exact hall v h

/-- Standard base64 decoding inverts encoding on byte lists. -/
lemma base64_roundtrip (b : List Nat) (hb : ∀ x ∈ b, x < 256) :
    base64DecodeString (base64Encode b) = .ok b := by
  induction b using base64Encode.induct with
  | case1 => rfl
  | case2 b0 =>
      have h0 : b0 < 256 := hb b0 (by simp)
      simp only [base64Encode, base64DecodeString,
        b64Val_b64Char _ (by omega : b0 / 4 < 64),
        b64Val_b64Char _ (by omega : b0 % 4 * 16 < 64)]
      simp only [beq_self_eq_true, List.isEmpty_nil, Bool.and_self, if_true,
        Except.ok.injEq, List.cons.injEq, and_true]
      omega
  | case3 b0 b1 =>
      have h0 : b0 < 256 := hb b0 (by simp)
      have h1 : b1 < 256 := hb b1 (by simp)
      simp only [base64Encode, base64DecodeString,
        b64Val_b64Char _ (by omega : b0 / 4 < 64),
        b64Val_b64Char _ (by omega : b0 % 4 * 16 + b1 / 16 < 64),
        b64Val_b64Char _ (by omega : b1 % 16 * 4 < 64),
        b64Char_ne_pad _ (by omega : b1 % 16 * 4 < 64)]
      simp only [Bool.false_eq_true, if_false, beq_self_eq_true, List.isEmpty_nil, if_true,
        Except.ok.injEq, List.cons.injEq, and_true]
      omega
  | case4 b0 b1 b2 rest ih =>
      have h0 : b0 < 256 := hb b0 (by simp)
      have h1 : b1 < 256 := hb b1 (by simp)
      have h2 : b2 < 256 := hb b2 (by simp)
      have hrest : ∀ x ∈ rest, x < 256 := fun x hx => hb x (by simp [hx])
      simp only [base64Encode, base64DecodeString,
        b64Val_b64Char _ (by omega : b0 / 4 < 64),
        b64Val_b64Char _ (by omega : b0 % 4 * 16 + b1 / 16 < 64),
        b64Val_b64Char _ (by omega : b1 % 16 * 4 + b2 / 64 < 64),
        b64Val_b64Char _ (by omega : b2 % 64 < 64),
        b64Char_ne_pad _ (by omega : b1 % 16 * 4 + b2 / 64 < 64),
        b64Char_ne_pad _ (by omega : b2 % 64 < 64)]
      simp only [Bool.false_eq_true, if_false, ih hrest, Except.map,
        Except.ok.injEq, List.cons.injEq, and_true]
      omega

/-- Hex decoding inverts encoding on byte lists. -/
lemma hex_roundtrip (b : List Nat) (hb : ∀ x ∈ b, x < 256) :
    hexDecodeString (hexEncode b) = .ok b := by
  induction b with
  | nil => rfl
  | cons b0 rest ih =>
      have h0 : b0 < 256 := hb b0 (by simp)
      have hrest : ∀ x ∈ rest, x < 256 := fun x hx => hb x (by simp [hx])
      simp only [hexEncode, hexDecodeString,
        hexVal_hexChar _ (by omega : b0 / 16 < 16),
        hexVal_hexChar _ (by omega : b0 % 16 < 16),
        ih hrest, Except.map, Except.ok.injEq, List.cons.injEq, and_true]
      omega

/-- C9: for every byte buffer, `getContentBytes` applied to the standard base64
encoding of the buffer with object type Secret and encoding "base64" returns
exactly the original bytes, and likewise for the hex encoding with
encoding "hex". -/
theorem getContentBytes_roundtrip (b : List Nat) (hb : ∀ x ∈ b, x < 256) :
    getContentBytes (base64Encode b) VaultObjectTypeSecret objectEncodingBase64 = .ok b ∧
    getContentBytes (hexEncode b) VaultObjectTypeSecret objectEncodingHex = .ok b := by
  constructor
  · exact base64_roundtrip b hb
  · exact hex_roundtrip b hb

/-- Witness for C9 at the concrete buffer `[0, 255, 7]`. -/
theorem getContentBytes_roundtrip_w :
    getContentBytes (base64Encode [0, 255, 7]) VaultObjectTypeSecret objectEncodingBase64 =
        .ok [0, 255, 7] ∧
    getContentBytes (hexEncode [0, 255, 7]) VaultObjectTypeSecret objectEncodingHex =
        .ok [0, 255, 7] :=
  getContentBytes_roundtrip [0, 255, 7] (by decide)

/-- C4: when the object type is not Secret, or the encoding is empty, or the
encoding is "utf-8" in any letter case, `getContentBytes` succeeds and returns
the content bytes unchanged. -/
theorem getContentBytes_passthrough (content : List Nat) (objectType objectEncoding : String)
    (h : eqFold objectType VaultObjectTypeSecret = false ∨ objectEncoding = ""
      ∨ eqFold objectEncoding objectEncodingUtf8 = true) :
    getContentBytes content objectType objectEncoding = .ok content := by
  unfold getContentBytes
  rcases h with h | h | h
  · simp [h]
  · simp [h]
  · simp [h]

/-- Witness for C4: a certificate-type object with encoding "base64" still
passes through untouched. -/
theorem getContentBytes_passthrough_w :
    getContentBytes [1, 2] VaultObjectTypeCertificate objectEncodingBase64 = .ok [1, 2] :=
  getContentBytes_passthrough [1, 2] VaultObjectTypeCertificate objectEncodingBase64
    (Or.inl (by decide))

/-- C2 (code divergence): the PFX-only-for-secret guard in
`validateObjectFormat` compares case sensitively, so the mixed-case formats
"PFX" and "Pfx" are accepted for non-secret object types while lowercase "pfx"
is rejected; Secret accepts "pfx", and "PEM" is accepted for every type. -/
theorem validateObjectFormat_pfx_case_bug :
    validateObjectFormat "PFX" VaultObjectTypeCertificate = .ok () ∧
    validateObjectFormat "Pfx" VaultObjectTypeKey = .ok () ∧
    validateObjectFormat "pfx" VaultObjectTypeCertificate =
      .error "PFX format only supported for objectType: secret" ∧
    validateObjectFormat "pfx" VaultObjectTypeSecret = .ok () ∧
    validateObjectFormat "PEM" VaultObjectTypeKey = .ok () := by
  decide

/-- Embedding of `parsePrivateKey` (provider.go lines 532-543).  The three
x509 stdlib parsers (`ParsePKCS1PrivateKey`, `ParsePKCS8PrivateKey`,
`ParseECPrivateKey`) are external to the repository, so they are abstract
parameters returning `Option K`; the function tries them in that order and
returns the repository's error when all three fail. -/
def parsePrivateKey {K : Type} (pkcs1 pkcs8 ec : List Nat → Option K)
    (block : List Nat) : Except String K :=
  match pkcs1 block with
  | some key => .ok key
  | none =>
    match pkcs8 block with
    | some key => .ok key
    | none =>
      match ec block with
      | some key => .ok key
      | none => .error "failed to parse key for type pkcs1, pkcs8 or ec"

/-- C8: `parsePrivateKey` tries PKCS#1 first, then PKCS#8, then legacy EC,
returning the first successful parse; it returns its error exactly when all
three parsers fail. -/
theorem parsePrivateKey_first_wins {K : Type} (pkcs1 pkcs8 ec : List Nat → Option K)
    (block : List Nat) :
    (∀ k, pkcs1 block = some k → parsePrivateKey pkcs1 pkcs8 ec block = .ok k) ∧
    (∀ k, pkcs1 block = none → pkcs8 block = some k →
      parsePrivateKey pkcs1 pkcs8 ec block = .ok k) ∧
    (∀ k, pkcs1 block = none → pkcs8 block = none → ec block = some k →
      parsePrivateKey pkcs1 pkcs8 ec block = .ok k) ∧
    (parsePrivateKey pkcs1 pkcs8 ec block = .error "failed to parse key for type pkcs1, pkcs8 or ec"
      ↔ pkcs1 block = none ∧ pkcs8 block = none ∧ ec block = none) := by
  unfold parsePrivateKey
  cases h1 : pkcs1 block <;> cases h2 : pkcs8 block <;> cases h3 : ec block <;> simp

/-- Witness for C8: with a failing PKCS#1 parser and a succeeding PKCS#8
parser, the PKCS#8 result is returned. -/
theorem parsePrivateKey_first_wins_w :
    parsePrivateKey (fun _ => (none : Option Nat)) (fun _ => some 5) (fun _ => none) [0] =
      .ok 5 :=
  (parsePrivateKey_first_wins (fun _ => (none : Option Nat)) (fun _ => some 5)
    (fun _ => none) [0]).2.1 5 rfl rfl

/-- UTF-8 code points of an ASCII string as a byte list. -/
def strBytes (s : String) : List Nat :=
  s.data.map fun c => c.toNat

/-- Model of Go `pem.Block`: a type label, a header map (as an association
list) and the DER payload. -/
structure PemBlock where
  type : String
  headers : List (String × String)
  bytes : List Nat
deriving DecidableEq, Repr, Inhabited

/-- Body lines of a PEM block: the base64 bytes wrapped at 64 columns, each
line newline-terminated (Go `pem.Encode` line breaker). -/
def pemLines (l : List Nat) : List Nat :=
  if l.isEmpty then []
  else if h : l.length ≤ 64 then l ++ [10]
  else l.take 64 ++ 10 :: pemLines (l.drop 64)
termination_by l.length
decreasing_by simp only [List.length_drop]; omega

/-- Model of Go `pem.EncodeToMemory`.  Header lines are emitted in list order
followed by a blank line; the extractor below only ever encodes header-free
blocks, for which this agrees exactly with Go (which additionally sorts header
keys, with Proc-Type first). -/
def pemEncode (b : PemBlock) : List Nat :=
  strBytes ("-----BEGIN " ++ b.type ++ "-----\n")
    ++ (b.headers.map fun kv => strBytes (kv.1 ++ ": " ++ kv.2 ++ "\n")).flatten
    ++ (if b.headers.isEmpty then [] else [10])
    ++ pemLines (base64Encode b.bytes)
    ++ strBytes ("-----END " ++ b.type ++ "-----\n")

/-- The per-block loop of `decodePKCS12` (provider.go lines 476-503), at the
level of PEM blocks: clear the headers of every block; a "CERTIFICATE" block
goes unchanged to the certificate stream; any other block is parsed as a
private key via `parsePrivateKey`, re-marshaled (abstract `marshalPKCS8`,
modelling `x509.MarshalPKCS8PrivateKey`) and goes to the key stream.  Returns
the key block stream and the certificate block stream. -/
def decodePKCS12Blocks {K : Type} (pkcs1 pkcs8 ec : List Nat → Option K)
    (marshalPKCS8 : K → Except String (List Nat)) :
    List PemBlock → Except String (List PemBlock × List PemBlock)
  | [] => .ok ([], [])
  | b :: rest =>
    let b1 : PemBlock := { b with headers := [] }
    if b1.type == certificateType then
      (decodePKCS12Blocks pkcs1 pkcs8 ec marshalPKCS8 rest).map fun p => (p.1, b1 :: p.2)
    else
      match parsePrivateKey pkcs1 pkcs8 ec b1.bytes with
      | .error e => .error e
      | .ok key =>
        match marshalPKCS8 key with
        | .error e => .error e
        | .ok der =>
          (decodePKCS12Blocks pkcs1 pkcs8 ec marshalPKCS8 rest).map
            fun p => ({ b1 with bytes := der } :: p.1, p.2)

/-- Embedding of `decodePKCS12` (provider.go lines 465-517) from the block
list produced by `pkcs12.ToPEM` onward (base64-decoding of the blob and the
PKCS#12 parse are the upstream steps): process the blocks, optionally rebuild
the certificate chain (`fetchChainsBytes` abstracts the byte-level
`fetchCertChains`, used only when `constructPEMChain` is set), and emit the
key stream followed by the certificate stream. -/
def decodePKCS12 {K : Type} (pkcs1 pkcs8 ec : List Nat → Option K)
    (marshalPKCS8 : K → Except String (List Nat))
    (constructPEMChain : Bool) (fetchChainsBytes : List Nat → Except String (List Nat))
    (blocks : List PemBlock) : Except String (List Nat) :=
  match decodePKCS12Blocks pkcs1 pkcs8 ec marshalPKCS8 blocks with
  | .error e => .error e
  | .ok (keyBlocks, certBlocks) =>
    let pemKeyData := (keyBlocks.map pemEncode).flatten
    let certData := (certBlocks.map pemEncode).flatten
    match (if constructPEMChain then fetchChainsBytes certData else .ok certData) with
    | .error e => .error e
    | .ok pemCertData => .ok (pemKeyData ++ pemCertData)

/-- A `Forall₂` relation lets every right member be traced to a related left
member. -/
lemma forall₂_right_mem {α β : Type} {R : α → β → Prop} {l1 : List α} {l2 : List β}
    (h : List.Forall₂ R l1 l2) : ∀ y ∈ l2, ∃ x, x ∈ l1 ∧ R x y := by
  induction h with
  | nil => simp
  | cons hab ht ih =>
      intro y hy
      rcases List.mem_cons.1 hy with rfl | hy'
      · exact ⟨_, List.mem_cons_self _ _, hab⟩
      · rcases ih y hy' with ⟨x, hx, hR⟩
        exact ⟨x, List.mem_cons_of_mem _ hx, hR⟩

/-- Structure of a successful `decodePKCS12Blocks` run: the certificate stream
is exactly the input's "CERTIFICATE" blocks in order with headers cleared, and
the key stream corresponds one-to-one, in order, to the non-certificate
blocks, each header-free and holding the PKCS#8 re-marshaling of its parsed
key. -/
lemma decodePKCS12Blocks_spec {K : Type} (pkcs1 pkcs8 ec : List Nat → Option K)
    (marshalPKCS8 : K → Except String (List Nat)) (blocks : List PemBlock)
    (keyBlocks certBlocks : List PemBlock)
    (h : decodePKCS12Blocks pkcs1 pkcs8 ec marshalPKCS8 blocks = .ok (keyBlocks, certBlocks)) :
    certBlocks = (blocks.filter fun b => b.type == certificateType).map
        (fun b => { b with headers := [] }) ∧
    List.Forall₂
      (fun b kb => kb.type = b.type ∧ kb.headers = [] ∧
        ∃ key, parsePrivateKey pkcs1 pkcs8 ec b.bytes = .ok key ∧
          marshalPKCS8 key = .ok kb.bytes)
      (blocks.filter fun b => !(b.type == certificateType)) keyBlocks := by
  induction blocks generalizing keyBlocks certBlocks with
  | nil =>
      simp only [decodePKCS12Blocks, Except.ok.injEq, Prod.mk.injEq] at h
      obtain ⟨h1, h2⟩ := h
      subst h1; subst h2
      simp
  | cons b rest ih =>
      by_cases hc : (b.type == certificateType) = true
      · cases hr : decodePKCS12Blocks pkcs1 pkcs8 ec marshalPKCS8 rest with
        | error e => simp [decodePKCS12Blocks, hc, hr, Except.map] at h
        | ok p =>
            simp only [decodePKCS12Blocks, hc, hr, Except.map, if_true,
              Except.ok.injEq, Prod.mk.injEq] at h
            obtain ⟨h1, h2⟩ := h
            subst h1; subst h2
            obtain ⟨ihc, ihk⟩ := ih p.1 p.2 (by rw [hr])
            constructor
            · simp only [List.filter_cons, hc, if_true, List.map_cons]
              exact congrArg _ ihc
            · simpa [List.filter_cons, hc] using ihk
      · cases hp : parsePrivateKey pkcs1 pkcs8 ec b.bytes with
        | error e => simp [decodePKCS12Blocks, hc, hp, Except.map] at h
        | ok key =>
            cases hm : marshalPKCS8 key with
            | error e => simp [decodePKCS12Blocks, hc, hp, hm, Except.map] at h
            | ok der =>
                cases hr : decodePKCS12Blocks pkcs1 pkcs8 ec marshalPKCS8 rest with
                | error e => simp [decodePKCS12Blocks, hc, hp, hm, hr, Except.map] at h
                | ok p =>
                    simp only [decodePKCS12Blocks, hc, hp, hm, hr, Except.map,
                      Bool.false_eq_true, if_false, Except.ok.injEq, Prod.mk.injEq] at h
                    obtain ⟨h1, h2⟩ := h
                    subst h1; subst h2
                    obtain ⟨ihc, ihk⟩ := ih p.1 p.2 (by rw [hr])
                    constructor
                    · simpa [List.filter_cons, hc] using ihc
                    · simp only [List.filter_cons, hc, Bool.not_false, if_true]
                      exact List.Forall₂.cons ⟨rfl, rfl, key, hp, hm⟩ ihk

/-- C7: on every successful `decodePKCS12` run (with chain reconstruction at
its default, off), the output is the concatenation of the key PEM blocks
(each holding its key re-marshaled into PKCS#8 DER) followed by the
certificate PEM blocks, in that order, and every emitted block is
header-free. -/
theorem decodePKCS12_keys_then_certs {K : Type} (pkcs1 pkcs8 ec : List Nat → Option K)
    (marshalPKCS8 : K → Except String (List Nat))
    (fetchChainsBytes : List Nat → Except String (List Nat))
    (blocks : List PemBlock) (out : List Nat)
    (h : decodePKCS12 pkcs1 pkcs8 ec marshalPKCS8 false fetchChainsBytes blocks = .ok out) :
    ∃ keyBlocks certBlocks,
      decodePKCS12Blocks pkcs1 pkcs8 ec marshalPKCS8 blocks = .ok (keyBlocks, certBlocks) ∧
      out = (keyBlocks.map pemEncode).flatten ++ (certBlocks.map pemEncode).flatten ∧
      (∀ b ∈ keyBlocks, b.headers = []) ∧
      (∀ b ∈ certBlocks, b.headers = []) ∧
      certBlocks = (blocks.filter fun b => b.type == certificateType).map
          (fun b => { b with headers := [] }) ∧
      List.Forall₂
        (fun b kb => kb.type = b.type ∧ kb.headers = [] ∧
          ∃ key, parsePrivateKey pkcs1 pkcs8 ec b.bytes = .ok key ∧
            marshalPKCS8 key = .ok kb.bytes)
        (blocks.filter fun b => !(b.type == certificateType)) keyBlocks := by
  cases hr : decodePKCS12Blocks pkcs1 pkcs8 ec marshalPKCS8 blocks with
  | error e => simp [decodePKCS12, hr] at h
  | ok p =>
      obtain ⟨keyBlocks, certBlocks⟩ := p
      simp only [decodePKCS12, hr, if_false, Bool.false_eq_true, Except.ok.injEq] at h
      obtain ⟨hcs, hks⟩ := decodePKCS12Blocks_spec pkcs1 pkcs8 ec marshalPKCS8 blocks
        keyBlocks certBlocks hr
      refine ⟨keyBlocks, certBlocks, rfl, h.symm, ?_, ?_, hcs, hks⟩
      · intro kb hkb
        rcases forall₂_right_mem hks kb hkb with ⟨b, _, _, hh, _⟩
        exact hh
      · intro cb hcb
        rw [hcs] at hcb
        rcases List.mem_map.1 hcb with ⟨b, _, rfl⟩
        rfl

/-- Witness for C7 at a concrete two-block container (one certificate block
carrying a header to be cleared, one key block). -/
theorem decodePKCS12_keys_then_certs_w :
    ∃ keyBlocks certBlocks,
      decodePKCS12Blocks (fun _ => some 9) (fun _ => (none : Option Nat)) (fun _ => none)
          (fun k => .ok [k])
          [⟨"CERTIFICATE", [("h", "v")], [12]⟩, ⟨"PRIVATE KEY", [], [7]⟩] =
        .ok (keyBlocks, certBlocks) ∧
      ((decodePKCS12 (fun _ => some 9) (fun _ => (none : Option Nat)) (fun _ => none)
          (fun k => .ok [k]) false (fun _ => .error "unused")
          [⟨"CERTIFICATE", [("h", "v")], [12]⟩, ⟨"PRIVATE KEY", [], [7]⟩]).toOption.getD []) =
        (keyBlocks.map pemEncode).flatten ++ (certBlocks.map pemEncode).flatten ∧
      (∀ b ∈ keyBlocks, b.headers = []) ∧
      (∀ b ∈ certBlocks, b.headers = []) ∧
      certBlocks = (([⟨"CERTIFICATE", [("h", "v")], [12]⟩,
            (⟨"PRIVATE KEY", [], [7]⟩ : PemBlock)]).filter
          fun b => b.type == certificateType).map (fun b => { b with headers := [] }) ∧
      List.Forall₂
        (fun b kb => kb.type = b.type ∧ kb.headers = [] ∧
          ∃ key, parsePrivateKey (fun _ => some 9) (fun _ => (none : Option Nat))
              (fun _ => none) b.bytes = .ok key ∧
            (fun k => (.ok [k] : Except String (List Nat))) key = .ok kb.bytes)
        (([⟨"CERTIFICATE", [("h", "v")], [12]⟩,
            (⟨"PRIVATE KEY", [], [7]⟩ : PemBlock)]).filter
          fun b => !(b.type == certificateType)) keyBlocks :=
  decodePKCS12_keys_then_certs (fun _ => some 9) (fun _ => (none : Option Nat)) (fun _ => none)
    (fun k => .ok [k]) (fun _ => .error "unused")
    [⟨"CERTIFICATE", [("h", "v")], [12]⟩, ⟨"PRIVATE KEY", [], [7]⟩] _ rfl

/-- A parsed certificate as the chain assembler sees it: the raw DER bytes and
the two key identifiers (`x509.Certificate.Raw`, `.SubjectKeyId`,
`.AuthorityKeyId`, the identifiers compared as byte strings). -/
structure Cert where
  raw : List Nat
  subjectKeyId : List Nat
  authorityKeyId : List Nat
deriving DecidableEq, Repr, Inhabited

/-- The certificate stored at index `i` of the node array. -/
def certAt (certs : List Cert) (i : Nat) : Cert :=
  certs.getD i default

/-- The parent search of `fetchCertChains` (provider.go lines 712-726) for
node `i`: the first index `j ≠ i` whose subject key identifier equals node
`i`'s authority key identifier ("first match in enumeration order wins"). -/
def findParent (certs : List Cert) (i : Nat) : Option Nat :=
  (List.range certs.length).find? fun j =>
    !(i == j) && ((certAt certs i).authorityKeyId == (certAt certs j).subjectKeyId)

/-- Whether node `j` gets its `isParent` flag set during the pairing loop:
exactly when some node picks `j` as its parent. -/
def isParentIdx (certs : List Cert) (j : Nat) : Bool :=
  (List.range certs.length).any fun i => findParent certs i == some j

/-- The leaf scan (provider.go lines 728-736): the first node never marked as
a parent. -/
def findLeaf (certs : List Cert) : Option Nat :=
  (List.range certs.length).find? fun i => !(isParentIdx certs i)

/-- Error outcomes of the chain assembler. -/
inductive ChainError where
  | noLeafFound
  | cycleDetected
deriving DecidableEq, Repr

/-- The chain walk (provider.go lines 742-752): follow parent links from the
current node, spending one unit of fuel per visited node; running out of fuel
with a node still in hand is exactly Go's `processedNodes > len(nodes)` cycle
guard. -/
def chainWalk (certs : List Cert) : Nat → Option Nat → Except ChainError (List Nat)
  | _, none => .ok []
  | 0, some _ => .error .cycleDetected
  | fuel + 1, some cur =>
      (chainWalk certs fuel (findParent certs cur)).map fun l => cur :: l

/-- Embedding of `fetchCertChains` (provider.go lines 679-762) from the parsed
certificate list onward (the leading PEM-decode/parse loop is the upstream
step): resolve parents, find the leaf, then walk the parent chain with the
cycle guard, returning the visited certificates leaf-first. -/
def fetchCertChains (certs : List Cert) : Except ChainError (List Cert) :=
  match findLeaf certs with
  | none => .error .noLeafFound
  | some leaf =>
      (chainWalk certs certs.length (some leaf)).map fun l => l.map (certAt certs)

/-- The byte output of `fetchCertChains`: each chain certificate re-encoded as
a header-free "CERTIFICATE" PEM block (provider.go lines 754-761). -/
def fetchCertChainsBytes (certs : List Cert) : Except ChainError (List Nat) :=
  (fetchCertChains certs).map fun chain =>
    (chain.map fun c => pemEncode ⟨certificateType, [], c.raw⟩).flatten

/-- C5: the chain of a single parsed certificate (self-signed or not) is that
certificate alone. -/
theorem fetchCertChains_single (a : Cert) : fetchCertChains [a] = .ok [a] := rfl

/-- C1 counterexample: two concrete certificates that mutually reference each
other as issuer do not produce `cycleDetected` (the code returns
`noLeafFound` instead, as both nodes are marked as parents). -/
theorem fetchCertChains_mutual_cex :
    (⟨[0], [1], [2]⟩ : Cert).authorityKeyId = (⟨[3], [2], [1]⟩ : Cert).subjectKeyId ∧
    (⟨[3], [2], [1]⟩ : Cert).authorityKeyId = (⟨[0], [1], [2]⟩ : Cert).subjectKeyId ∧
    fetchCertChains [⟨[0], [1], [2]⟩, ⟨[3], [2], [1]⟩] ≠ .error .cycleDetected := by
  decide

/-- C1 (amended): for every two parsed certificates that mutually reference
each other as issuer, `fetchCertChains` terminates with the no-leaf-found
error: the pairing loop marks each of the two nodes as the other's parent, so
the leaf scan fails before the cycle guard is ever reached. -/
theorem fetchCertChains_mutual_noleaf (a b : Cert)
    (hab : a.authorityKeyId = b.subjectKeyId)
    (hba : b.authorityKeyId = a.subjectKeyId) :
    fetchCertChains [a, b] = .error .noLeafFound := by
  have hr2 : List.range 2 = [0, 1] := rfl
  have hp0 : findParent [a, b] 0 = some 1 := by
    simp [findParent, certAt, hr2, List.find?, hab]
  have hp1 : findParent [a, b] 1 = some 0 := by
    simp [findParent, certAt, hr2, List.find?, hba]
  have hleaf : findLeaf [a, b] = none := by
    simp [findLeaf, isParentIdx, hr2, List.find?, List.any, hp0, hp1]
  simp [fetchCertChains, hleaf]

/-- Witness for C1 (amended) at the concrete mutual pair. -/
theorem fetchCertChains_mutual_noleaf_w :
    fetchCertChains [⟨[10], [1], [2]⟩, ⟨[11], [2], [1]⟩] = .error .noLeafFound :=
  fetchCertChains_mutual_noleaf ⟨[10], [1], [2]⟩ ⟨[11], [2], [1]⟩ rfl rfl

/-- Orbit predicate: `IsOrbit certs oc l` says that starting from the optional node `oc` and repeatedly
following `findParent`, the walk visits exactly the indices in `l` and then
stops on `none`. -/
def IsOrbit (certs : List Cert) : Option Nat → List Nat → Prop
  | none, [] => True
  | none, _ :: _ => False
  | some _, [] => False
  | some c, x :: xs => x = c ∧ IsOrbit certs (findParent certs c) xs

/-- A successful walk visits at most `fuel` nodes. -/
lemma chainWalk_length_le (certs : List Cert) :
    ∀ (fuel : Nat) (oc : Option Nat) (l : List Nat),
      chainWalk certs fuel oc = .ok l → l.length ≤ fuel := by
  intro fuel
  induction fuel with
  | zero =>
      intro oc l h
      cases oc with
      | none => simp only [chainWalk, Except.ok.injEq] at h; subst h; simp
      | some c => simp [chainWalk] at h
  | succ n ih =>
      intro oc l h
      cases oc with
      | none => simp only [chainWalk, Except.ok.injEq] at h; subst h; simp
      | some c =>
          cases hw : chainWalk certs n (findParent certs c) with
          | error e => simp [chainWalk, hw, Except.map] at h
          | ok l' =>
              simp only [chainWalk, hw, Except.map, Except.ok.injEq] at h
              subst h
              simpa using ih (findParent certs c) l' hw

/-- A successful walk is a parent orbit. -/
lemma chainWalk_isOrbit (certs : List Cert) :
    ∀ (fuel : Nat) (oc : Option Nat) (l : List Nat),
      chainWalk certs fuel oc = .ok l → IsOrbit certs oc l := by
  intro fuel
  induction fuel with
  | zero =>
      intro oc l h
      cases oc with
      | none => simp only [chainWalk, Except.ok.injEq] at h; subst h; trivial
      | some c => simp [chainWalk] at h
  | succ n ih =>
      intro oc l h
      cases oc with
      | none => simp only [chainWalk, Except.ok.injEq] at h; subst h; trivial
      | some c =>
          cases hw : chainWalk certs n (findParent certs c) with
          | error e => simp [chainWalk, hw, Except.map] at h
          | ok l' =>
              simp only [chainWalk, hw, Except.map, Except.ok.injEq] at h
              subst h
              exact ⟨rfl, ih (findParent certs c) l' hw⟩

/-- The orbit of a starting point is unique. -/
lemma isOrbit_unique (certs : List Cert) (l1 : List Nat) :
    ∀ (oc : Option Nat) (l2 : List Nat),
      IsOrbit certs oc l1 → IsOrbit certs oc l2 → l1 = l2 := by
  induction l1 with
  | nil =>
      intro oc l2 h1 h2
      cases oc with
      | none => cases l2 with
          | nil => rfl
          | cons y ys => exact absurd h2 (by simp [IsOrbit])
      | some c => exact absurd h1 (by simp [IsOrbit])
  | cons x xs ih =>
      intro oc l2 h1 h2
      cases oc with
      | none => exact absurd h1 (by simp [IsOrbit])
      | some c =>
          obtain ⟨hx, ht1⟩ := h1
          cases l2 with
          | nil => exact absurd h2 (by simp [IsOrbit])
          | cons y ys =>
              obtain ⟨hy, ht2⟩ := h2
              rw [hx, hy, ih (findParent certs c) ys (hx ▸ ht1) (hy ▸ ht2)]

/-- Every tail of an orbit that starts at a member `x` is itself the orbit of
`x`. -/
lemma isOrbit_tail (certs : List Cert) (u : List Nat) :
    ∀ (oc : Option Nat) (x : Nat) (v : List Nat),
      IsOrbit certs oc (u ++ x :: v) → IsOrbit certs (some x) (x :: v) := by
  induction u with
  | nil =>
      intro oc x v h
      cases oc with
      | none => exact absurd h (by simp [IsOrbit])
      | some c =>
          obtain ⟨hx, ht⟩ := h
          subst hx
          exact ⟨rfl, ht⟩
  | cons a u' ih =>
      intro oc x v h
      cases oc with
      | none => exact absurd h (by simp [IsOrbit])
      | some c =>
          obtain ⟨_, ht⟩ := h
          exact ih (findParent certs c) x v ht

/-- An orbit never visits an index twice: a repeat would make the
parent-function walk periodic, and a periodic walk never reaches `none`. -/
lemma isOrbit_nodup (certs : List Cert) (l : List Nat) :
    ∀ (oc : Option Nat), IsOrbit certs oc l → l.Nodup := by
  induction l with
  | nil => intro oc _; exact List.nodup_nil
  | cons x xs ih =>
      intro oc h
      cases oc with
      | none => exact absurd h (by simp [IsOrbit])
      | some c =>
          obtain ⟨hx, ht⟩ := h
          subst hx
          refine List.nodup_cons.2 ⟨?_, ih (findParent certs x) ht⟩
          intro hmem
          obtain ⟨u, v, huv⟩ := List.append_of_mem hmem
          rw [huv] at ht
          have h1 : IsOrbit certs (some x) (x :: v) :=
            isOrbit_tail certs u (findParent certs x) x v ht
          have h2 : IsOrbit certs (some x) (x :: (u ++ x :: v)) := ⟨rfl, ht⟩
          have heq := isOrbit_unique certs (x :: (u ++ x :: v)) (some x) (x :: v) h2 h1
          have hlen := congrArg List.length heq
          simp at hlen
          omega

/-- Every index visited by an orbit is either the start or in the image of
`findParent`. -/
lemma isOrbit_mem (certs : List Cert) (l : List Nat) :
    ∀ (oc : Option Nat), IsOrbit certs oc l →
      ∀ x ∈ l, oc = some x ∨ ∃ y, findParent certs y = some x := by
  induction l with
  | nil => intro oc _ x hx; exact absurd hx (List.not_mem_nil x)
  | cons z zs ih =>
      intro oc h x hx
      cases oc with
      | none => exact absurd h (by simp [IsOrbit])
      | some c =>
          obtain ⟨hz, ht⟩ := h
          subst hz
          rcases List.mem_cons.1 hx with rfl | hx'
          · exact Or.inl rfl
          · rcases ih (findParent certs z) ht x hx' with hfp | hex
            · exact Or.inr ⟨z, hfp⟩
            · exact Or.inr hex

/-- A found parent index is in range. -/
lemma findParent_lt (certs : List Cert) (i j : Nat)
    (h : findParent certs i = some j) : j < certs.length := by
  have := List.mem_of_find?_eq_some h
  simpa using this

/-- A found leaf index is in range. -/
lemma findLeaf_lt (certs : List Cert) (i : Nat)
    (h : findLeaf certs = some i) : i < certs.length := by
  have := List.mem_of_find?_eq_some h
  simpa using this

/-- On a duplicate-free certificate list, `certAt` is injective on indices in
range. -/
lemma certAt_inj (certs : List Cert) (hnd : certs.Nodup) (i j : Nat)
    (hi : i < certs.length) (hj : j < certs.length)
    (he : certAt certs i = certAt certs j) : i = j := by
  unfold certAt at he
  rw [List.getD_eq_getElem certs default hi, List.getD_eq_getElem certs default hj] at he
  exact List.Nodup.getElem_inj_iff hnd |>.1 he

/-- C6 counterexample: with a duplicated input certificate the assembler can
succeed with a chain that contains the same certificate twice (the claim's
no-duplicate invariant fails as stated). -/
theorem fetchCertChains_dup_cex :
    fetchCertChains [⟨[5], [0], [0]⟩, ⟨[6], [0], [1]⟩, ⟨[5], [0], [0]⟩] =
      .ok [⟨[5], [0], [0]⟩, ⟨[5], [0], [0]⟩, ⟨[6], [0], [1]⟩] ∧
    ¬ ([⟨[5], [0], [0]⟩, ⟨[5], [0], [0]⟩, ⟨[6], [0], [1]⟩] : List Cert).Nodup := by
  decide

/-- C6 (amended): on every successful run the chain is at most as long as the
input list, and, provided the input certificates are pairwise distinct, no
certificate appears twice in the chain. -/
theorem fetchCertChains_len_nodup (certs : List Cert) (chain : List Cert)
    (h : fetchCertChains certs = .ok chain) :
    chain.length ≤ certs.length ∧ (certs.Nodup → chain.Nodup) := by
  cases hleaf : findLeaf certs with
  | none => simp [fetchCertChains, hleaf] at h
  | some leaf =>
      simp only [fetchCertChains, hleaf] at h
      cases hw : chainWalk certs certs.length (some leaf) with
      | error e => rw [hw] at h; simp [Except.map] at h
      | ok idxs =>
          rw [hw] at h
          simp only [Except.map, Except.ok.injEq] at h
          subst h
          have horb := chainWalk_isOrbit certs certs.length (some leaf) idxs hw
          have hmem : ∀ x ∈ idxs, x < certs.length := by
            intro x hx
            rcases isOrbit_mem certs idxs (some leaf) horb x hx with hstart | ⟨y, hy⟩
            · exact (Option.some.inj hstart) ▸ findLeaf_lt certs leaf hleaf
            · exact findParent_lt certs y x hy
          constructor
          · simpa using chainWalk_length_le certs certs.length (some leaf) idxs hw
          · intro hnd
            exact List.Nodup.map_on
              (fun x hx y hy he => certAt_inj certs hnd x y (hmem x hx) (hmem y hy) he)
              (isOrbit_nodup certs idxs (some leaf) horb)

/-- Witness for C6 (amended) at a concrete two-certificate chain. -/
theorem fetchCertChains_len_nodup_w :
    ([⟨[1], [2], [9]⟩, (⟨[3], [9], [7]⟩ : Cert)] : List Cert).length ≤
        ([⟨[1], [2], [9]⟩, (⟨[3], [9], [7]⟩ : Cert)] : List Cert).length ∧
    (([⟨[1], [2], [9]⟩, (⟨[3], [9], [7]⟩ : Cert)] : List Cert).Nodup →
      ([⟨[1], [2], [9]⟩, (⟨[3], [9], [7]⟩ : Cert)] : List Cert).Nodup) :=
  fetchCertChains_len_nodup [⟨[1], [2], [9]⟩, ⟨[3], [9], [7]⟩]
    [⟨[1], [2], [9]⟩, ⟨[3], [9], [7]⟩] rfl

/-- A list that is a permutation of three pairwise distinct elements is one of
the six arrangements. -/
lemma perm3_cases {α : Type} [DecidableEq α] {l : List α} {a b c : α}
    (hab : a ≠ b) (hac : a ≠ c) (hbc : b ≠ c) (h : l.Perm [a, b, c]) :
    l = [a, b, c] ∨ l = [a, c, b] ∨ l = [b, a, c] ∨ l = [b, c, a] ∨
      l = [c, a, b] ∨ l = [c, b, a] := by
  have hlen : l.length = 3 := by simpa using h.length_eq
  cases l with
  | nil => simp at hlen
  | cons x t =>
    cases t with
    | nil => simp at hlen
    | cons y t2 =>
      cases t2 with
      | nil => simp at hlen
      | cons z t3 =>
        cases t3 with
        | cons w t4 => simp at hlen
        | nil =>
          have hnd : ([x, y, z] : List α).Nodup := by
            rw [h.nodup_iff]
            simp [hab, hac, hbc]
          have hmx : x = a ∨ x = b ∨ x = c := by
            simpa using h.subset (show x ∈ [x, y, z] by simp)
          have hmy : y = a ∨ y = b ∨ y = c := by
            simpa using h.subset (show y ∈ [x, y, z] by simp)
          have hmz : z = a ∨ z = b ∨ z = c := by
            simpa using h.subset (show z ∈ [x, y, z] by simp)
          simp only [List.nodup_cons, List.mem_cons] at hnd
          rcases hmx with rfl | rfl | rfl <;> rcases hmy with rfl | rfl | rfl <;>
            rcases hmz with rfl | rfl | rfl <;> simp_all

/-- C3: for three parsed certificates linked leaf-to-root (`A` issued by `B`,
`B` issued by `C`, `C` self-signed) with pairwise distinct subject key
identifiers, `fetchCertChains` on any input permutation succeeds with exactly
the chain `[A, B, C]`. -/
theorem fetchCertChains_three_perm (A B C : Cert) (l : List Cert)
    (hperm : l.Perm [A, B, C])
    (hAB : A.authorityKeyId = B.subjectKeyId)
    (hBC : B.authorityKeyId = C.subjectKeyId)
    (hCC : C.authorityKeyId = C.subjectKeyId)
    (dAB : A.subjectKeyId ≠ B.subjectKeyId)
    (dAC : A.subjectKeyId ≠ C.subjectKeyId)
    (dBC : B.subjectKeyId ≠ C.subjectKeyId) :
    fetchCertChains l = .ok [A, B, C] := by
  have hr3 : List.range 3 = [0, 1, 2] := rfl
  have e1 : (A.authorityKeyId == B.subjectKeyId) = true := by simp [hAB]
  have e2 : (B.authorityKeyId == C.subjectKeyId) = true := by simp [hBC]
  have e3 : (C.authorityKeyId == C.subjectKeyId) = true := by simp [hCC]
  have n1 : (A.authorityKeyId == A.subjectKeyId) = false := by
    rw [hAB]; exact beq_eq_false_iff_ne.mpr (Ne.symm dAB)
  have n2 : (A.authorityKeyId == C.subjectKeyId) = false := by
    rw [hAB]; exact beq_eq_false_iff_ne.mpr dBC
  have n3 : (B.authorityKeyId == A.subjectKeyId) = false := by
    rw [hBC]; exact beq_eq_false_iff_ne.mpr (Ne.symm dAC)
  have n4 : (B.authorityKeyId == B.subjectKeyId) = false := by
    rw [hBC]; exact beq_eq_false_iff_ne.mpr (Ne.symm dBC)
  have n5 : (C.authorityKeyId == A.subjectKeyId) = false := by
    rw [hCC]; exact beq_eq_false_iff_ne.mpr (Ne.symm dAC)
  have n6 : (C.authorityKeyId == B.subjectKeyId) = false := by
    rw [hCC]; exact beq_eq_false_iff_ne.mpr (Ne.symm dBC)
  have gA0 : ∀ x y z : Cert, certAt [x, y, z] 0 = x := fun _ _ _ => rfl
  have gA1 : ∀ x y z : Cert, certAt [x, y, z] 1 = y := fun _ _ _ => rfl
  have gA2 : ∀ x y z : Cert, certAt [x, y, z] 2 = z := fun _ _ _ => rfl
  have hABne : A ≠ B := fun he => dAB (by rw [he])
  have hACne : A ≠ C := fun he => dAC (by rw [he])
  have hBCne : B ≠ C := fun he => dBC (by rw [he])
  rcases perm3_cases hABne hACne hBCne hperm with rfl | rfl | rfl | rfl | rfl | rfl <;>
    simp [fetchCertChains, findLeaf, isParentIdx, findParent, chainWalk, hr3, Except.map,
      List.find?, List.any, gA0, gA1, gA2, e1, e2, e3, n1, n2, n3, n4, n5, n6]

/-- Witness for C3 at concrete certificates, fed in the order `[B, C, A]`. -/
theorem fetchCertChains_three_perm_w :
    fetchCertChains [⟨[2], [20], [30]⟩, ⟨[3], [30], [30]⟩, ⟨[1], [10], [20]⟩] =
      .ok [⟨[1], [10], [20]⟩, ⟨[2], [20], [30]⟩, ⟨[3], [30], [30]⟩] :=
  fetchCertChains_three_perm ⟨[1], [10], [20]⟩ ⟨[2], [20], [30]⟩ ⟨[3], [30], [30]⟩
    [⟨[2], [20], [30]⟩, ⟨[3], [30], [30]⟩, ⟨[1], [10], [20]⟩]
    (by decide) rfl rfl rfl (by decide) (by decide) (by decide)

/-- Go `filepath.IsAbs` on unix: the path starts with `/`
(`strings.HasPrefix(path, "/")`). -/
def filepathIsAbs (fileName : List Char) : Bool :=
  match fileName with
  | '/' :: _ => true
  | _ => false

/-- Go `strings.Contains`, as decidable infix containment on character
lists. -/
def containsSub (substr l : List Char) : Bool :=
  decide (substr <:+: l)

/-- Embedding of `validateFileName` (provider.go lines 651-671); the file name
is modelled as its character list, Go `strings.Split` on `"/"` as
`List.splitOn` (`filepath.ToSlash` is the identity on unix). -/
def validateFileName (fileName : List Char) : Except String Unit :=
  if fileName.length == 0 then
    .error "file name must not be empty"
  else if filepathIsAbs fileName then
    .error "file name must be a relative path"
  else if (fileName.splitOn '/').any (fun item => item == ['.', '.']) then
    .error "file name must not contain '..'"
  else if containsSub ['.', '.'] fileName then
    .error "file name must not contain '..'"
  else
    .ok ()

/-- Unfolding of a two-or-more intercalation. -/
lemma intercalate_cons₂ {α : Type} (sep a b : List α) (L : List (List α)) :
    sep.intercalate (a :: b :: L) = a ++ sep ++ sep.intercalate (b :: L) := by
  simp [List.intercalate, List.intersperse_cons_cons, List.append_assoc]

/-- A member of an intercalation is an infix of it. -/
lemma mem_intercalate_sub {α : Type} (sep : List α) (L : List (List α)) (y : List α)
    (hy : y ∈ L) : y <:+: sep.intercalate L := by
  induction L with
  | nil => exact absurd hy (List.not_mem_nil y)
  | cons a L' ih =>
      cases L' with
      | nil =>
          have hya : y = a := by simpa using hy
          subst hya
          simp [List.intercalate]
      | cons b L'' =>
          rcases List.mem_cons.1 hy with rfl | hy'
          · exact ⟨[], sep ++ sep.intercalate (b :: L''),
              by rw [intercalate_cons₂]; simp [List.append_assoc]⟩
          · obtain ⟨s, t, hst⟩ := ih hy'
            exact ⟨a ++ sep ++ s, t,
              by rw [intercalate_cons₂, ← hst]; simp [List.append_assoc]⟩

/-- Every piece produced by `splitOn` is an infix of the original list. -/
lemma mem_splitOn_sub {l part : List Char} (h : part ∈ l.splitOn '/') :
    part <:+: l := by
  have h2 := mem_intercalate_sub ['/'] (l.splitOn '/') part h
  rwa [List.intercalate_splitOn] at h2

/-- C10: `validateFileName` accepts a file name exactly when it is non-empty,
not an absolute path, and does not contain the substring ".." (in particular
no path element is ".."; the element check is subsumed by the substring
check). -/
theorem validateFileName_ok_iff (fileName : List Char) :
    validateFileName fileName = .ok () ↔
      fileName ≠ [] ∧ filepathIsAbs fileName = false ∧ ¬ (['.', '.'] <:+: fileName) := by
  unfold validateFileName
  split_ifs with h1 h2 h3 h4
  · have hnil : fileName = [] := by simpa [List.length_eq_zero] using h1
    simp [hnil]
  · simp [h2]
  · simp only [List.any_eq_true, beq_iff_eq] at h3
    obtain ⟨part, hmem, rfl⟩ := h3
    simp [mem_splitOn_sub hmem]
  · have hsub : ['.', '.'] <:+: fileName := of_decide_eq_true h4
    simp [hsub]
  · have hne : fileName ≠ [] := by
      intro he
      exact h1 (by simp [he])
    have habs : filepathIsAbs fileName = false := by
      cases hb : filepathIsAbs fileName with
      | false => rfl
      | true => exact absurd hb h2
    have hnsub : ¬ (['.', '.'] <:+: fileName) := of_decide_eq_false
      (by cases hb : containsSub ['.', '.'] fileName with
          | false => exact hb
          | true => exact absurd hb h4)
    simp [hne, habs, hnsub]

end AzProvider
